import Mathlib

/-! The `ElfFile` interface of patchelf (`src/patchelf.h`)

A shallow embedding of the integer read/write primitives (`rdi`, `wri`), the
two header comparators (`CompPhdr`, `CompShdr`) and the replacement store of
the `ElfFile` class template, with the properties stated about them.

Machine integers are mathematical integers (`Int`) together with the C++
integer type they have; a conversion `static_cast<I>` is reduction modulo
`2 ^ width` into the range of `I`.
-/

namespace Patchelf

/-! ## Integer types and conversions -/

/-- A C++ integer type: its size in bytes (`sizeof`) and its signedness. -/
structure IntTy where
  bytes : Nat
  signed : Bool
  deriving DecidableEq, Repr

namespace IntTy

/-- Width in bits. -/
def bits (T : IntTy) : Nat := 8 * T.bytes

/-- Number of bit patterns of the type, `2 ^ bits`. -/
def modulus (T : IntTy) : Int := 2 ^ T.bits

/-- Smallest representable value. -/
def minVal (T : IntTy) : Int := if T.signed then -(T.modulus / 2) else 0

/-- Largest representable value. -/
def maxVal (T : IntTy) : Int := T.minVal + T.modulus - 1

/-- The value `v` is representable in `T`. -/
def InRange (T : IntTy) (v : Int) : Prop := T.minVal ≤ v ∧ v ≤ T.maxVal

instance (T : IntTy) (v : Int) : Decidable (T.InRange v) := by
  unfold InRange; infer_instance

end IntTy

/-- The type `uint8_t`. -/
def u8 : IntTy := ⟨1, false⟩
/-- The type `uint16_t` (`Elf32_Half`, `Elf64_Half`). -/
def u16 : IntTy := ⟨2, false⟩
/-- The type `uint32_t` (`Elf32_Word`, `Elf64_Word`, `Elf32_Addr`, `Elf32_Off`). -/
def u32 : IntTy := ⟨4, false⟩
/-- The type `uint64_t` (`Elf64_Xword`, `Elf64_Addr`, `Elf64_Off`). -/
def u64 : IntTy := ⟨8, false⟩
/-- The type `int8_t`. -/
def i8 : IntTy := ⟨1, true⟩
/-- The type `int16_t`. -/
def i16 : IntTy := ⟨2, true⟩
/-- The type `int32_t` (`Elf32_Sword`, `Elf64_Sword`, `int`). -/
def i32 : IntTy := ⟨4, true⟩
/-- The type `int64_t` (`Elf64_Sxword`). -/
def i64 : IntTy := ⟨8, true⟩

/-- The conversion `static_cast<T>(v)` between integer types: the unique value
of `T` congruent to `v` modulo `2 ^ bits`. -/
def staticCast (T : IntTy) (v : Int) : Int :=
  (v - T.minVal) % T.modulus + T.minVal

/-! ## Byte order -/

/-- The `n` bytes of `v`, least significant first. -/
def toBytes : Nat → Nat → List Nat
  | 0, _ => []
  | n + 1, v => (v % 256) :: toBytes n (v / 256)

/-- The number whose bytes, least significant first, are the given ones. -/
def ofBytes : List Nat → Nat
  | [] => 0
  | b :: bs => b + 256 * ofBytes bs

/-- The object representation of a value of type `T` read as an unsigned
number (two's complement). -/
def bitPattern (T : IntTy) (v : Int) : Nat := (v % T.modulus).toNat

/-- Reversal of the bytes of a value of type `T`. -/
def byteSwap (T : IntTy) (v : Int) : Int :=
  staticCast T (ofBytes (toBytes T.bytes (bitPattern T v)).reverse)

/-! ## Program and section headers -/

/-- The integer types the class template is instantiated with
(`Elf_Addr`, `Elf_Off` of `ElfFileParams`). -/
structure ElfFileParams where
  Elf_Addr : IntTy
  Elf_Off : IntTy
  deriving DecidableEq, Repr

/-- The 32-bit instantiation (`Elf32_Addr`, `Elf32_Off`). -/
def elf32 : ElfFileParams := ⟨u32, u32⟩
/-- The 64-bit instantiation (`Elf64_Addr`, `Elf64_Off`). -/
def elf64 : ElfFileParams := ⟨u64, u64⟩

/-- Modelled from the spec: the program header structure of `elf.h`, which is
included by `patchelf.h` but not part of it; the attributes are those listed
in the data model. Each field holds the integer the host reads from the
field as stored, that is in the byte order of the file. -/
structure Elf_Phdr where
  p_type : Int
  p_flags : Int
  p_offset : Int
  p_vaddr : Int
  p_paddr : Int
  p_filesz : Int
  p_memsz : Int
  p_align : Int
  deriving DecidableEq, Repr

/-- Modelled from the spec: the section header structure of `elf.h`, with the
attributes listed in the data model, stored like those of `Elf_Phdr`. -/
structure Elf_Shdr where
  sh_name : Int
  sh_type : Int
  sh_flags : Int
  sh_addr : Int
  sh_offset : Int
  sh_size : Int
  sh_link : Int
  sh_info : Int
  sh_addralign : Int
  sh_entsize : Int
  deriving DecidableEq, Repr

/-- Modelled from the spec: the constant `PT_PHDR` of `elf.h` (segment type of
the program header table itself), 6 in the ELF specification. -/
def PT_PHDR : Int := 6

/-- The type of the fields `p_type` and `sh_name` (`Elf32_Word` and
`Elf64_Word` are both 32-bit unsigned). -/
def Elf_Word : IntTy := u32

/-- Name of a section (`using SectionName = std::string`). -/
abbrev SectionName := String

/-- A string of bytes (`std::string`, `std::vector<unsigned char>`). -/
abbrev Bytes := List Nat

/-- The store of replaced sections
(`using ReplacedSections = std::map<SectionName, std::string>`), as the list
of its entries. -/
abbrev ReplacedSections := List (SectionName × Bytes)

/-- The data members of `ElfFile` (`patchelf.h` lines 21-45); `fileContents`
is the byte vector the shared pointer refers to. -/
structure ElfFile where
  fileContents : Bytes
  phdrs : List Elf_Phdr
  shdrs : List Elf_Shdr
  littleEndian : Bool
  changed : Bool
  isExecutable : Bool
  replacedSections : ReplacedSections
  sectionNames : String
  sectionsByOldIndex : List SectionName
  deriving DecidableEq, Repr

/-- Modelled from the spec: `rdi` is declared in `patchelf.h` (line 158) but
defined outside it. It converts between the byte order declared by the ELF
header (`littleEndian`) and the host representation: the identity when the
two byte orders agree, a reversal of the bytes of the field otherwise.
`host` tells whether the host is little-endian. -/
def rdi (host : Bool) (elfFile : ElfFile) (I : IntTy) (i : Int) : Int :=
  if elfFile.littleEndian = host then i else byteSwap I i

/-- Outcome of a call that may throw `std::runtime_error`. -/
abbrev Thrown := Except String

deriving instance DecidableEq for Except

/-- The member `ElfFile::wri` (`patchelf.h` lines 161-169), with field type
`I` and value type `U`. The member function is `const`: of the state it can
reach it assigns only to the reference parameter `t`. The content of `t` is
passed in, and its content after the call is the first component of the
result; the second component is the returned value, or the message of the
exception thrown. -/
def wri (host : Bool) (elfFile : ElfFile) (I U : IntTy) (t : Int) (i : Int) :
    Int × Thrown Int :=
  let val := staticCast I i
  if staticCast U val ≠ i then
    (t, Except.error "value truncation")
  else
    (rdi host elfFile I val, Except.ok val)

/-- The value `i` of type `U` is a sign reinterpretation for the field type
`I`: the two types differ in signedness, the unsigned one is at least as wide
as the signed one, and `i` is a negative value of a signed `U`, or a value of
an unsigned `U` that the signed field type reads as negative
(`i ≥ 2 ^ width U - 2 ^ (width I - 1)`). -/
def SignReinterpreted (I U : IntTy) (i : Int) : Prop :=
  (U.signed = true ∧ I.signed = false ∧ U.bytes ≤ I.bytes ∧ i < 0) ∨
  (U.signed = false ∧ I.signed = true ∧ I.bytes ≤ U.bytes ∧
    U.modulus - I.modulus / 2 ≤ i)

instance (I U : IntTy) (i : Int) : Decidable (SignReinterpreted I U i) := by
  unfold SignReinterpreted; infer_instance

/-- The member `ElfFile::isChanged` (`patchelf.h` lines 50-53). -/
def isChanged (e : ElfFile) : Bool := e.changed

/-- The member `ElfFile::CompPhdr::operator()` (`patchelf.h` lines 60-68). -/
def CompPhdr (host : Bool) (P : ElfFileParams) (elfFile : ElfFile)
    (x y : Elf_Phdr) : Bool :=
  -- A PHDR comes before everything else.
  if rdi host elfFile Elf_Word y.p_type = PT_PHDR then false
  else if rdi host elfFile Elf_Word x.p_type = PT_PHDR then true
  -- Sort non-PHDRs by address.
  else decide (rdi host elfFile P.Elf_Addr x.p_paddr
        < rdi host elfFile P.Elf_Addr y.p_paddr)

/-- The member `ElfFile::CompShdr::operator()` (`patchelf.h` lines 76-79). -/
def CompShdr (host : Bool) (P : ElfFileParams) (elfFile : ElfFile)
    (x y : Elf_Shdr) : Bool :=
  decide (rdi host elfFile P.Elf_Off x.sh_offset
        < rdi host elfFile P.Elf_Off y.sh_offset)

/-- A sequence is sorted with respect to a comparator `comp` when no element
is ordered by `comp` before an element that precedes it (the C++ library's
definition, the postcondition of `std::sort`). -/
def SortedWrt {α : Type} (comp : α → α → Bool) (l : List α) : Prop :=
  l.Pairwise (fun a b => comp b a = false)

instance {α : Type} (comp : α → α → Bool) (l : List α) :
    Decidable (SortedWrt comp l) := by
  unfold SortedWrt; infer_instance

/-- The program header has (decoded) type `PT_PHDR`. -/
def isPhdr (host : Bool) (elfFile : ElfFile) (x : Elf_Phdr) : Bool :=
  decide (rdi host elfFile Elf_Word x.p_type = PT_PHDR)

/-- The decoded address `rdi(p_paddr)` of a program header. -/
def phdrAddr (host : Bool) (P : ElfFileParams) (elfFile : ElfFile)
    (x : Elf_Phdr) : Int :=
  rdi host elfFile P.Elf_Addr x.p_paddr

/-- The decoded file offset `rdi(sh_offset)` of a section header. -/
def shdrOffset (host : Bool) (P : ElfFileParams) (elfFile : ElfFile)
    (x : Elf_Shdr) : Int :=
  rdi host elfFile P.Elf_Off x.sh_offset

/-! ## Replacement store -/

/-- The error kinds of the engine. -/
inductive ErrorKind where
  | MalformedELF
  | MissingSection
  | ValueTruncation
  | NoRoom
  | InvalidArgument
  deriving DecidableEq, Repr

/-- The lookup `std::map::find`: the value stored under a key, if any. -/
def mapFind (m : ReplacedSections) (k : SectionName) : Option Bytes :=
  match m with
  | [] => none
  | (k', v) :: rest => if k' = k then some v else mapFind rest k

/-- Assignment `m[k] = v` of `std::map`: the entry of `k` gets the value `v`,
and is created when the map has none. -/
def mapAssign (m : ReplacedSections) (k : SectionName) (v : Bytes) :
    ReplacedSections :=
  match m with
  | [] => [(k, v)]
  | (k', v') :: rest =>
    if k' = k then (k, v) :: rest else (k', v') :: mapAssign rest k v

/-- The entries a store holds for the name `k`. -/
def entriesOf (m : ReplacedSections) (k : SectionName) : ReplacedSections :=
  m.filter (fun p => decide (p.1 = k))

/-- The operation `std::string::resize`: cut to `n` bytes, or pad with zero
bytes up to `n`. -/
def resize (s : Bytes) (n : Nat) : Bytes :=
  s.take n ++ List.replicate (n - s.length) 0

/-- Modelled from the spec: `getSectionName` is declared in `patchelf.h`
(line 88) and defined outside it. The name of a section is the string of
`.shstrtab` (kept in `sectionNames`) that starts at the offset `sh_name` and
ends before the next NUL. -/
def getSectionName (host : Bool) (e : ElfFile) (shdr : Elf_Shdr) :
    SectionName :=
  String.mk (((e.sectionNames.toList).drop
    (rdi host e Elf_Word shdr.sh_name).toNat).takeWhile
      (fun c => c != Char.ofNat 0))

/-- Modelled from the spec: `tryFindSectionHeader` is declared in
`patchelf.h` (line 92) and defined outside it. `tryFind(name)` returns the
header of the section of that name, and nothing if absent. -/
def tryFindSectionHeader (host : Bool) (e : ElfFile) (sectionName : SectionName) :
    Option Elf_Shdr :=
  e.shdrs.find? (fun shdr => decide (getSectionName host e shdr = sectionName))

/-- Modelled from the spec: `findSectionHeader` is declared in `patchelf.h`
(line 90) and defined outside it. `find(name)` fails with MissingSection
when the section is absent. -/
def findSectionHeader (host : Bool) (e : ElfFile) (sectionName : SectionName) :
    Except ErrorKind Elf_Shdr :=
  match tryFindSectionHeader host e sectionName with
  | some shdr => Except.ok shdr
  | none => Except.error ErrorKind.MissingSection

/-- Modelled from the spec: the current payload of a section, which the
absent `replaceSection` reads: the `sh_size` bytes of the file image from the
offset `sh_offset` (`sh_size` is as wide as `Elf_Off` in both
instantiations). -/
def sectionPayload (host : Bool) (P : ElfFileParams) (e : ElfFile)
    (shdr : Elf_Shdr) : Bytes :=
  (e.fileContents.drop (rdi host e P.Elf_Off shdr.sh_offset).toNat).take
    (rdi host e P.Elf_Off shdr.sh_size).toNat

/-- Modelled from the spec: `haveReplacedSection` is declared in `patchelf.h`
(line 99) and defined outside it. `haveReplaced(name)` tells whether the
replacement store has an entry for the name. -/
def haveReplacedSection (e : ElfFile) (sectionName : SectionName) : Bool :=
  (mapFind e.replacedSections sectionName).isSome

/-- Modelled from the spec: `replaceSection` is declared in `patchelf.h`
(lines 96-97) and defined outside it. `replace(name, size)` creates the
replacement entry of the section, a byte string of the requested size; a
second call with the same name returns the existing buffer, resized to
`size`. The spec leaves the content of a new buffer open: here it starts as
the current payload of the section, cut or padded with zeros to the size. A
section that is neither replaced nor in the catalog is a MissingSection. The
call takes the engine to the dirty state, where `changed` is true. The result
is the new engine state and the buffer the returned reference designates. -/
def replaceSection (host : Bool) (P : ElfFileParams) (e : ElfFile)
    (sectionName : SectionName) (size : Nat) : Except ErrorKind (ElfFile × Bytes) :=
  match mapFind e.replacedSections sectionName with
  | some buf =>
    let s := resize buf size
    Except.ok ({ e with replacedSections := mapAssign e.replacedSections sectionName s,
                        changed := true }, s)
  | none =>
    match findSectionHeader host e sectionName with
    | Except.error err => Except.error err
    | Except.ok shdr =>
      let s := resize (sectionPayload host P e shdr) size
      Except.ok ({ e with replacedSections := mapAssign e.replacedSections sectionName s,
                          changed := true }, s)

/-- The client writes through the reference `replaceSection` returned: the
buffer of the entry becomes `buf`. -/
def editBuffer (e : ElfFile) (sectionName : SectionName) (buf : Bytes) : ElfFile :=
  { e with replacedSections := mapAssign e.replacedSections sectionName buf }

/-- Modelled from the spec: `rewriteSections` is declared in `patchelf.h`
(line 114) and defined outside it. Calling rewrite on a clean engine (no
replacements) with `force = false` is a no-op; otherwise the rewrite is
committed and leaves the replacement store empty. The layout planner and the
rewriter proper are the parameter `commit`. -/
def rewriteSections (commit : ElfFile → Except ErrorKind ElfFile) (e : ElfFile)
    (force : Bool) : Except ErrorKind ElfFile :=
  if !force && e.replacedSections.isEmpty then Except.ok e
  else
    match commit e with
    | Except.error err => Except.error err
    | Except.ok e' => Except.ok { e' with replacedSections := [] }

/-! ## Sample engine states -/

/-- A little-endian image with the sections `.interp` and `.dynstr`, as a
little-endian host holds it. -/
def sampleLE : ElfFile :=
  { fileContents := [127, 69, 76, 70, 47, 108, 100, 0, 0, 108, 105, 98, 0]
    phdrs := []
    shdrs := [⟨0, 0, 0, 0, 0, 0, 0, 0, 0, 0⟩,
              ⟨1, 1, 2, 4, 4, 4, 0, 0, 1, 0⟩,
              ⟨9, 3, 2, 8, 8, 5, 0, 0, 1, 0⟩]
    littleEndian := true
    changed := false
    isExecutable := false
    replacedSections := []
    sectionNames := "\x00.interp\x00.dynstr\x00"
    sectionsByOldIndex := ["", ".interp", ".dynstr"] }

/-- A big-endian image without sections, as a little-endian host holds it. -/
def sampleBE : ElfFile :=
  { fileContents := [127, 69, 76, 70]
    phdrs := []
    shdrs := []
    littleEndian := false
    changed := false
    isExecutable := false
    replacedSections := []
    sectionNames := ""
    sectionsByOldIndex := [] }

/-- A program header of the given stored type and stored address. -/
def mkPhdr (p_type p_paddr : Int) : Elf_Phdr :=
  ⟨p_type, 4, 0, p_paddr, p_paddr, 0, 0, 4096⟩

/-- A section header of the given stored file offset and stored name
offset. -/
def mkShdr (sh_offset sh_name : Int) : Elf_Shdr :=
  ⟨sh_name, 1, 2, 0, sh_offset, 16, 0, 0, 1, 0⟩

/-! ## Conversions: auxiliary facts -/

theorem modulus_pos (T : IntTy) : 0 < T.modulus := by
  unfold IntTy.modulus; positivity

theorem modulus_mono (I U : IntTy) (h : I.bytes ≤ U.bytes) : I.modulus ≤ U.modulus := by
  unfold IntTy.modulus IntTy.bits
  exact pow_le_pow_right₀ (by norm_num) (by omega)

theorem staticCast_inRange (T : IntTy) (v : Int) : T.InRange (staticCast T v) := by
  have hM := modulus_pos T
  have h1 := Int.emod_nonneg (v - T.minVal) (ne_of_gt hM)
  have h2 := Int.emod_lt_of_pos (v - T.minVal) hM
  unfold IntTy.InRange IntTy.maxVal staticCast
  omega

theorem staticCast_of_inRange (T : IntTy) (v : Int) (h : T.InRange v) :
    staticCast T v = v := by
  have hM := modulus_pos T
  unfold IntTy.InRange IntTy.maxVal at h
  unfold staticCast
  rw [Int.emod_eq_of_lt (by omega) (by omega)]
  omega

theorem staticCast_eq_self_iff (T : IntTy) (v : Int) :
    staticCast T v = v ↔ T.InRange v := by
  constructor
  · intro h; rw [← h]; exact staticCast_inRange T v
  · exact staticCast_of_inRange T v

theorem staticCast_congr (T : IntTy) (v : Int) : T.modulus ∣ staticCast T v - v := by
  unfold staticCast
  have h := Int.emod_add_ediv (v - T.minVal) T.modulus
  refine ⟨-((v - T.minVal) / T.modulus), ?_⟩
  linarith

theorem modulus_dvd (I U : IntTy) (h : I.bytes ≤ U.bytes) : I.modulus ∣ U.modulus := by
  unfold IntTy.modulus IntTy.bits
  exact pow_dvd_pow 2 (by omega)

theorem modulus_strict (I U : IntTy) (h : I.bytes < U.bytes) :
    2 * I.modulus ≤ U.modulus := by
  unfold IntTy.modulus IntTy.bits
  have h1 : (2 : Int) ^ (8 * I.bytes + 1) ≤ 2 ^ (8 * U.bytes) :=
    pow_le_pow_right₀ (by norm_num) (by omega)
  rw [pow_succ] at h1
  linarith

theorem minVal_eq (T : IntTy) :
    (T.signed = true ∧ T.minVal = -(T.modulus / 2)) ∨ (T.signed = false ∧ T.minVal = 0) := by
  unfold IntTy.minVal
  cases T.signed <;> simp

theorem eq_of_dvd_of_close (m a b : Int) (hd : m ∣ a - b) (h1 : a - b < m) (h2 : -m < a - b) :
    a = b := by
  have h := Int.eq_zero_of_abs_lt_dvd hd (abs_lt.mpr ⟨h2, h1⟩)
  omega

theorem staticCast_unique (T : IntTy) (a v : Int) (ha : T.InRange a)
    (hd : T.modulus ∣ a - v) : staticCast T v = a := by
  have h1 := staticCast_inRange T v
  have h2 := staticCast_congr T v
  have h3 : T.modulus ∣ staticCast T v - a := by
    have := dvd_sub h2 hd
    simpa using this
  unfold IntTy.InRange IntTy.maxVal at ha h1
  exact eq_of_dvd_of_close T.modulus _ _ h3 (by omega) (by omega)

/-- A round trip that succeeds on a value that is no sign reinterpretation
leaves the value as it is. -/
theorem roundtrip_exact (I U : IntTy) (i : Int) (hU : U.InRange i)
    (hns : ¬ SignReinterpreted I U i)
    (h : staticCast U (staticCast I i) = i) : staticCast I i = i := by
  have hv := staticCast_inRange I i
  have hdI := staticCast_congr I i
  have hdU : U.modulus ∣ staticCast I i - i := by
    have h1 := staticCast_congr U (staticCast I i)
    rw [h] at h1
    have := dvd_neg.mpr h1
    simpa using this
  have hIpos := modulus_pos I
  have hUpos := modulus_pos U
  generalize staticCast I i = v at *
  unfold IntTy.InRange IntTy.maxVal at hU hv
  unfold SignReinterpreted at hns
  rcases Nat.lt_or_ge I.bytes U.bytes with hb | hb
  · have hm := modulus_strict I U hb
    rcases minVal_eq I with ⟨hsI, hmI⟩ | ⟨hsI, hmI⟩ <;>
    rcases minVal_eq U with ⟨hsU, hmU⟩ | ⟨hsU, hmU⟩ <;>
    simp only [hsI, hsU, true_and, false_and, and_false, or_false, false_or, not_and,
      not_le, not_lt, Bool.false_eq_true, not_false_eq_true, not_true_eq_false] at hns <;>
    rw [hmI] at hv <;> rw [hmU] at hU <;>
    refine eq_of_dvd_of_close U.modulus _ _ hdU ?_ ?_ <;> omega
  · rcases Nat.eq_or_lt_of_le hb with hb1 | hb1
    · have hm1 := modulus_mono I U (by omega)
      have hm2 := modulus_mono U I (by omega)
      rcases minVal_eq I with ⟨hsI, hmI⟩ | ⟨hsI, hmI⟩ <;>
      rcases minVal_eq U with ⟨hsU, hmU⟩ | ⟨hsU, hmU⟩ <;>
      simp only [hsI, hsU, true_and, false_and, and_false, or_false, false_or, not_and,
        not_le, not_lt, Bool.false_eq_true, not_false_eq_true, not_true_eq_false] at hns <;>
      rw [hmI] at hv <;> rw [hmU] at hU <;>
      refine eq_of_dvd_of_close U.modulus _ _ hdU ?_ ?_ <;> omega
    · have hm := modulus_strict U I hb1
      rcases minVal_eq I with ⟨hsI, hmI⟩ | ⟨hsI, hmI⟩ <;>
      rcases minVal_eq U with ⟨hsU, hmU⟩ | ⟨hsU, hmU⟩ <;>
      simp only [hsI, hsU, true_and, false_and, and_false, or_false, false_or, not_and,
        not_le, not_lt, Bool.false_eq_true, not_false_eq_true, not_true_eq_false] at hns <;>
      rw [hmI] at hv <;> rw [hmU] at hU <;>
      refine eq_of_dvd_of_close I.modulus _ _ hdI ?_ ?_ <;> omega


/-- A sign reinterpretation is not representable in the field type, passes the
round trip and changes value: the conversion gives `i + 2 ^ width I` for a
signed `U` and `i - 2 ^ width U` for an unsigned one. -/
theorem roundtrip_of_signReinterpreted (I U : IntTy) (i : Int) (hU : U.InRange i)
    (hr : SignReinterpreted I U i) :
    ¬ I.InRange i ∧
    staticCast I i = (if U.signed then i + I.modulus else i - U.modulus) ∧
    staticCast U (staticCast I i) = i ∧ staticCast I i ≠ i := by
  have hIpos := modulus_pos I
  have hUpos := modulus_pos U
  unfold SignReinterpreted at hr
  rcases hr with ⟨hsU, hsI, hb, hi⟩ | ⟨hsU, hsI, hb, hi⟩
  · have hm := modulus_mono U I hb
    have hd := modulus_dvd U I hb
    have hmU : U.minVal = -(U.modulus / 2) := by simp [IntTy.minVal, hsU]
    have hmI : I.minVal = 0 := by simp [IntTy.minVal, hsI]
    have hnr : ¬ I.InRange i := by
      unfold IntTy.InRange; rw [hmI]; omega
    have hc : staticCast I i = i + I.modulus := by
      apply staticCast_unique
      · unfold IntTy.InRange IntTy.maxVal at hU ⊢
        rw [hmI]; rw [hmU] at hU
        omega
      · simp
    have hback : staticCast U (i + I.modulus) = i := by
      apply staticCast_unique _ _ _ hU
      have : i - (i + I.modulus) = -I.modulus := by ring
      rw [this]
      exact (dvd_neg.mpr hd)
    refine ⟨hnr, ?_, ?_, ?_⟩
    · simp [hsU, hc]
    · rw [hc, hback]
    · rw [hc]; omega
  · have hm := modulus_mono I U hb
    have hd := modulus_dvd I U hb
    have hmU : U.minVal = 0 := by simp [IntTy.minVal, hsU]
    have hmI : I.minVal = -(I.modulus / 2) := by simp [IntTy.minVal, hsI]
    unfold IntTy.InRange IntTy.maxVal at hU
    rw [hmU] at hU
    have hnr : ¬ I.InRange i := by
      unfold IntTy.InRange IntTy.maxVal; rw [hmI]; omega
    have hc : staticCast I i = i - U.modulus := by
      apply staticCast_unique
      · unfold IntTy.InRange IntTy.maxVal
        rw [hmI]
        omega
      · have : i - U.modulus - i = -U.modulus := by ring
        rw [this]
        exact (dvd_neg.mpr hd)
    have hback : staticCast U (i - U.modulus) = i := by
      apply staticCast_unique
      · unfold IntTy.InRange IntTy.maxVal
        rw [hmU]; omega
      · simp
    refine ⟨hnr, ?_, ?_, ?_⟩
    · simp [hsU, hc]
    · rw [hc, hback]
    · rw [hc]; omega

/-! ## Byte order: auxiliary facts -/

theorem toBytes_length (n v : Nat) : (toBytes n v).length = n := by
  induction n generalizing v with
  | zero => rfl
  | succ n ih => simp [toBytes, ih]

theorem toBytes_lt (n v : Nat) : ∀ b ∈ toBytes n v, b < 256 := by
  induction n generalizing v with
  | zero => intro b hb; simp [toBytes] at hb
  | succ n ih =>
    intro b hb
    simp only [toBytes, List.mem_cons] at hb
    rcases hb with hb | hb
    · omega
    · exact ih _ b hb

theorem ofBytes_toBytes (n v : Nat) (h : v < 256 ^ n) : ofBytes (toBytes n v) = v := by
  induction n generalizing v with
  | zero => simp at h; simp [toBytes, ofBytes, h]
  | succ n ih =>
    have h1 : v / 256 < 256 ^ n := by
      rw [Nat.div_lt_iff_lt_mul (by norm_num)]
      rw [pow_succ] at h; exact h
    simp only [toBytes, ofBytes, ih _ h1]
    omega

theorem ofBytes_lt (l : List Nat) (h : ∀ b ∈ l, b < 256) : ofBytes l < 256 ^ l.length := by
  induction l with
  | nil => simp [ofBytes]
  | cons a l ih =>
    have ha : a < 256 := h a (List.mem_cons_self _ _)
    have hl := ih (fun b hb => h b (List.mem_cons_of_mem _ hb))
    simp only [ofBytes, List.length_cons, pow_succ]
    omega

theorem toBytes_ofBytes (l : List Nat) (h : ∀ b ∈ l, b < 256) :
    toBytes l.length (ofBytes l) = l := by
  induction l with
  | nil => rfl
  | cons a l ih =>
    have ha : a < 256 := h a (List.mem_cons_self _ _)
    have hl := ih (fun b hb => h b (List.mem_cons_of_mem _ hb))
    simp only [List.length_cons, toBytes, ofBytes]
    have h1 : (a + 256 * ofBytes l) % 256 = a := by omega
    have h2 : (a + 256 * ofBytes l) / 256 = ofBytes l := by omega
    rw [h1, h2, hl]

theorem modulus_eq (T : IntTy) : T.modulus = ((256 ^ T.bytes : Nat) : Int) := by
  unfold IntTy.modulus IntTy.bits
  rw [pow_mul]; norm_num

theorem bitPattern_lt (T : IntTy) (v : Int) : bitPattern T v < 256 ^ T.bytes := by
  have hM := modulus_pos T
  have h2 := Int.emod_lt_of_pos v hM
  have h1 := Int.emod_nonneg v (ne_of_gt hM)
  unfold bitPattern
  rw [modulus_eq] at h2 h1 ⊢
  omega

theorem bitPattern_staticCast (T : IntTy) (r : Nat) (h : r < 256 ^ T.bytes) :
    bitPattern T (staticCast T (r : Int)) = r := by
  have hM := modulus_pos T
  obtain ⟨k, hk⟩ := staticCast_congr T (r : Int)
  have h3 : staticCast T (r : Int) = (r : Int) + T.modulus * k := by linarith
  unfold bitPattern
  rw [h3, Int.add_mul_emod_self_left, modulus_eq]
  rw [Int.emod_eq_of_lt (by omega) (by exact_mod_cast h)]
  simp

theorem staticCast_bitPattern (T : IntTy) (v : Int) (h : T.InRange v) :
    staticCast T (bitPattern T v : Int) = v := by
  have hM := modulus_pos T
  have h1 := Int.emod_nonneg v (ne_of_gt hM)
  have hb : ((bitPattern T v : Nat) : Int) = v % T.modulus := by
    unfold bitPattern; omega
  have h2 : T.modulus ∣ v - v % T.modulus := Int.dvd_sub_of_emod_eq rfl
  obtain ⟨k, hk⟩ := h2
  have h3 : T.InRange (staticCast T (v % T.modulus)) := staticCast_inRange _ _
  obtain ⟨j, hj⟩ := staticCast_congr T (v % T.modulus)
  rw [hb]
  unfold IntTy.InRange IntTy.maxVal at h h3
  have h4 : staticCast T (v % T.modulus) - v = T.modulus * (j - k) := by
    rw [mul_sub]; linarith
  by_contra hne
  have h5 : j - k ≠ 0 := by
    intro h0; rw [h0] at h4; simp at h4; omega
  rcases lt_or_gt_of_ne h5 with h6 | h6
  · have : T.modulus * (j - k) ≤ T.modulus * (-1) :=
      mul_le_mul_of_nonneg_left (by omega) (le_of_lt hM)
    omega
  · have : T.modulus * 1 ≤ T.modulus * (j - k) :=
      mul_le_mul_of_nonneg_left (by omega) (le_of_lt hM)
    omega

theorem byteSwap_byteSwap (T : IntTy) (v : Int) (h : T.InRange v) :
    byteSwap T (byteSwap T v) = v := by
  unfold byteSwap
  have hlen : (toBytes T.bytes (bitPattern T v)).reverse.length = T.bytes := by
    rw [List.length_reverse, toBytes_length]
  have hlt : ∀ b ∈ (toBytes T.bytes (bitPattern T v)).reverse, b < 256 := by
    intro b hb
    exact toBytes_lt _ _ b (List.mem_reverse.mp hb)
  have hr := ofBytes_lt _ hlt
  rw [hlen] at hr
  rw [bitPattern_staticCast T _ hr]
  have h1 := toBytes_ofBytes _ hlt
  rw [hlen] at h1
  rw [h1, List.reverse_reverse, ofBytes_toBytes _ _ (bitPattern_lt T v)]
  exact staticCast_bitPattern T v h

theorem rdi_rdi (host : Bool) (e : ElfFile) (I : IntTy) (v : Int) (h : I.InRange v) :
    rdi host e I (rdi host e I v) = v := by
  unfold rdi
  split
  · rfl
  · exact byteSwap_byteSwap I v h


theorem wri_eq (host : Bool) (e : ElfFile) (I U : IntTy) (t i : Int) :
    wri host e I U t i =
      if staticCast U (staticCast I i) ≠ i then (t, Except.error "value truncation")
      else (rdi host e I (staticCast I i), Except.ok (staticCast I i)) := rfl

/-! ## Properties of `wri` -/

/-- C1: `wri(t, i)` throws "value truncation" exactly when converting `i` to
the field type `I` and back to `U` does not give `i` again, and in every other
case it returns `static_cast<I>(i)`. -/
theorem wri_throws_iff_no_roundtrip (host : Bool) (e : ElfFile) (I U : IntTy) (t i : Int) :
    ((wri host e I U t i).2 = Except.error "value truncation"
        ↔ staticCast U (staticCast I i) ≠ i) ∧
    ((wri host e I U t i).2 = Except.ok (staticCast I i)
        ↔ staticCast U (staticCast I i) = i) := by
  rw [wri_eq]
  by_cases h : staticCast U (staticCast I i) = i
  · simp [h]
  · simp [h]

/-- C2, as stated, fails when the field type and the value type differ in
signedness and the unsigned one is at least as wide as the signed one: a
signed 32-bit `-1` written to an unsigned 32-bit field returns `4294967295`
and written to an unsigned 64-bit field `18446744073709551615`; an unsigned
32-bit `0x80000000` written to a signed 32-bit field returns `-2147483648`,
and an unsigned 64-bit `0xffffffffffffffff` written to a signed 32-bit field
returns `-1`. None is representable in its field, and `wri` does not throw. -/
theorem wri_sign_change_not_caught :
    (i32.InRange (-1) ∧ ¬ u32.InRange (-1) ∧
      (wri true sampleLE u32 i32 0 (-1)).2 ≠ Except.error "value truncation" ∧
      (wri true sampleLE u32 i32 0 (-1)).2 = Except.ok 4294967295 ∧
      (4294967295 : Int) ≠ -1) ∧
    (u32.InRange 2147483648 ∧ ¬ i32.InRange 2147483648 ∧
      (wri true sampleLE i32 u32 0 2147483648).2 ≠ Except.error "value truncation" ∧
      (wri true sampleLE i32 u32 0 2147483648).2 = Except.ok (-2147483648) ∧
      (-2147483648 : Int) ≠ 2147483648) ∧
    (i32.InRange (-1) ∧ ¬ u64.InRange (-1) ∧
      (wri true sampleLE u64 i32 0 (-1)).2 ≠ Except.error "value truncation" ∧
      (wri true sampleLE u64 i32 0 (-1)).2 = Except.ok 18446744073709551615 ∧
      (18446744073709551615 : Int) ≠ -1) ∧
    (u64.InRange 18446744073709551615 ∧ ¬ i32.InRange 18446744073709551615 ∧
      (wri true sampleLE i32 u64 0 18446744073709551615).2
        ≠ Except.error "value truncation" ∧
      (wri true sampleLE i32 u64 0 18446744073709551615).2 = Except.ok (-1) ∧
      (-1 : Int) ≠ 18446744073709551615) := by
  decide

/-- C2, amended: for a value `i` of the value type `U`, `wri` throws "value
truncation" exactly when `i` is not representable in the field type `I` and
is not a sign reinterpretation that survives the round trip; a value `wri`
returns is numerically equal to `i` exactly when `i` is no such
reinterpretation, and for a reinterpretation `wri` returns `i + 2 ^ width I`
(signed `U`) or `i - 2 ^ width U` (unsigned `U`). -/
theorem wri_checks_range_up_to_sign (host : Bool) (e : ElfFile) (I U : IntTy)
    (t i : Int) (hU : U.InRange i) :
    ((wri host e I U t i).2 = Except.error "value truncation" ↔
      (¬ I.InRange i ∧ ¬ SignReinterpreted I U i)) ∧
    (∀ v, (wri host e I U t i).2 = Except.ok v →
      (v = i ↔ ¬ SignReinterpreted I U i)) ∧
    (SignReinterpreted I U i →
      (wri host e I U t i).2 =
        Except.ok (if U.signed then i + I.modulus else i - U.modulus)) := by
  rw [wri_eq]
  by_cases hr : SignReinterpreted I U i
  · obtain ⟨hnr, hc, hback, hne⟩ := roundtrip_of_signReinterpreted I U i hU hr
    simp only [hback, ne_eq, not_true_eq_false, if_false]
    refine ⟨?_, ?_, ?_⟩
    · simp [hr]
    · intro v hv
      injection hv with hv
      rw [← hv]
      simp [hr, hne]
    · intro _
      rw [hc]
  · by_cases h : staticCast U (staticCast I i) = i
    · have h1 := roundtrip_exact I U i hU hr h
      have h2 := (staticCast_eq_self_iff I i).mp h1
      simp only [h, ne_eq, not_true_eq_false, if_false]
      refine ⟨?_, ?_, ?_⟩
      · simp [h2]
      · intro v hv
        injection hv with hv
        rw [← hv]
        simp [hr, h1]
      · intro h3; exact absurd h3 hr
    · have h2 : ¬ I.InRange i := by
        intro hin
        rw [staticCast_of_inRange I i hin, staticCast_of_inRange U i hU] at h
        exact h rfl
      simp only [h, ne_eq, not_false_eq_true, if_true]
      refine ⟨?_, ?_, ?_⟩
      · simp [h2, hr]
      · intro v hv
        simp at hv
      · intro h3; exact absurd h3 hr

/-- Witness of C2 (amended): a signed 64-bit `-1` written to an unsigned 32-bit
field is caught, the value type being wider than the field. -/
theorem wri_checks_range_up_to_sign_witness :
    i64.InRange (-1) ∧ ¬ u32.InRange (-1) ∧ ¬ SignReinterpreted u32 i64 (-1) ∧
    (((wri true sampleLE u32 i64 7 (-1)).2 = Except.error "value truncation" ↔
      (¬ u32.InRange (-1) ∧ ¬ SignReinterpreted u32 i64 (-1))) ∧
    (∀ v, (wri true sampleLE u32 i64 7 (-1)).2 = Except.ok v →
      (v = -1 ↔ ¬ SignReinterpreted u32 i64 (-1))) ∧
    (SignReinterpreted u32 i64 (-1) →
      (wri true sampleLE u32 i64 7 (-1)).2 =
        Except.ok (if i64.signed then -1 + u32.modulus else -1 - i64.modulus))) :=
  ⟨by decide, by decide, by decide,
    wri_checks_range_up_to_sign true sampleLE u32 i64 7 (-1) (by decide)⟩

/-- C3: after a call `wri(t, i)` that returns normally, reading the field back
with `rdi(t)` gives the value `wri` returned, which is `static_cast<I>(i)`,
for either byte order of the file and of the host. -/
theorem rdi_after_wri (host : Bool) (e : ElfFile) (I U : IntTy) (t i v : Int)
    (h : (wri host e I U t i).2 = Except.ok v) :
    rdi host e I (wri host e I U t i).1 = v ∧
    v = staticCast I i := by
  rw [wri_eq] at h ⊢
  by_cases hr : staticCast U (staticCast I i) = i
  · simp only [hr, ne_eq, not_true_eq_false, if_false] at h ⊢
    injection h with h
    rw [rdi_rdi host e I _ (staticCast_inRange I i)]
    exact ⟨h, h.symm⟩
  · simp [hr] at h

/-- Witness of C3: `0x11223344` written to a 32-bit field of a big-endian file
on a little-endian host; the field holds `0x44332211`. -/
theorem rdi_after_wri_witness :
    (wri true sampleBE u32 u64 0 287454020).2 = Except.ok 287454020 ∧
    (wri true sampleBE u32 u64 0 287454020).1 = 1144201745 ∧
    (rdi true sampleBE u32 (wri true sampleBE u32 u64 0 287454020).1 = 287454020 ∧
      (287454020 : Int) = staticCast u32 287454020) :=
  ⟨by decide, by decide, rdi_after_wri true sampleBE u32 u64 0 287454020 287454020 (by decide)⟩

/-- C10: when `wri(t, i)` throws, the field `t` holds after the call what it
held before it: the check precedes the assignment. -/
theorem wri_throw_leaves_field (host : Bool) (e : ElfFile) (I U : IntTy) (t i : Int)
    (msg : String) (h : (wri host e I U t i).2 = Except.error msg) :
    (wri host e I U t i).1 = t := by
  rw [wri_eq] at h ⊢
  by_cases hr : staticCast U (staticCast I i) = i
  · simp [hr] at h
  · simp [hr]

/-- Witness of C10: `0x10000` does not fit a 16-bit field, which keeps its
content `7`. -/
theorem wri_throw_leaves_field_witness :
    (wri true sampleBE u16 u32 7 65536).2 = Except.error "value truncation" ∧
    (wri true sampleBE u16 u32 7 65536).1 = 7 :=
  ⟨by decide, wri_throw_leaves_field true sampleBE u16 u32 7 65536 "value truncation" (by decide)⟩


/-! ## The comparators -/

theorem CompPhdr_eq (host : Bool) (P : ElfFileParams) (e : ElfFile) (x y : Elf_Phdr) :
    CompPhdr host P e x y =
      (!isPhdr host e y && (isPhdr host e x ||
        decide (phdrAddr host P e x < phdrAddr host P e y))) := by
  unfold CompPhdr isPhdr phdrAddr
  by_cases hy : rdi host e Elf_Word y.p_type = PT_PHDR
  · simp [hy]
  · by_cases hx : rdi host e Elf_Word x.p_type = PT_PHDR
    · simp [hy, hx]
    · simp [hy, hx]

/-- C4: `CompPhdr(z, x)` is false whenever `x` has type `PT_PHDR`, and
`CompPhdr(x, y)` is true whenever `x` has type `PT_PHDR` and `y` has not;
hence in a program header list sorted with respect to `CompPhdr` no entry of
another type precedes a `PT_PHDR` entry. -/
theorem CompPhdr_phdr_first (host : Bool) (P : ElfFileParams) (e : ElfFile)
    (x y z : Elf_Phdr) (l : List Elf_Phdr)
    (hx : isPhdr host e x = true) (hy : isPhdr host e y = false)
    (hl : SortedWrt (CompPhdr host P e) l) :
    CompPhdr host P e z x = false ∧
    CompPhdr host P e x y = true ∧
    l.Pairwise (fun a b => isPhdr host e b = true → isPhdr host e a = true) := by
  refine ⟨?_, ?_, ?_⟩
  · rw [CompPhdr_eq]; simp [hx]
  · rw [CompPhdr_eq]; simp [hx, hy]
  · refine List.Pairwise.imp ?_ hl
    intro a b hab hb
    rw [CompPhdr_eq] at hab
    cases ha : isPhdr host e a
    · simp [ha, hb] at hab
    · rfl

/-- Witness of C4: a big-endian table on a little-endian host, its `PT_PHDR`
entry (stored type `0x06000000`) first. -/
theorem CompPhdr_phdr_first_witness :
    isPhdr true sampleBE (mkPhdr 100663296 0) = true ∧
    isPhdr true sampleBE (mkPhdr 16777216 256) = false ∧
    SortedWrt (CompPhdr true elf32 sampleBE)
      [mkPhdr 100663296 0, mkPhdr 16777216 256, mkPhdr 16777216 1] ∧
    (CompPhdr true elf32 sampleBE (mkPhdr 16777216 1) (mkPhdr 100663296 0) = false ∧
    CompPhdr true elf32 sampleBE (mkPhdr 100663296 0) (mkPhdr 16777216 256) = true ∧
    [mkPhdr 100663296 0, mkPhdr 16777216 256, mkPhdr 16777216 1].Pairwise
      (fun a b => isPhdr true sampleBE b = true → isPhdr true sampleBE a = true)) :=
  ⟨by decide, by decide, by decide,
    CompPhdr_phdr_first true elf32 sampleBE (mkPhdr 100663296 0) (mkPhdr 16777216 256)
      (mkPhdr 16777216 1) _ (by decide) (by decide) (by decide)⟩

/-- C5: for program headers `x` and `y` neither of which has type `PT_PHDR`,
`CompPhdr(x, y)` holds exactly when the decoded address `rdi(p_paddr)` of `x`
is strictly less than that of `y`; hence in a list sorted with respect to
`CompPhdr` the entries other than `PT_PHDR` are in non-decreasing order of
decoded address. -/
theorem CompPhdr_by_address (host : Bool) (P : ElfFileParams) (e : ElfFile)
    (x y : Elf_Phdr) (l : List Elf_Phdr)
    (hx : isPhdr host e x = false) (hy : isPhdr host e y = false)
    (hl : SortedWrt (CompPhdr host P e) l) :
    (CompPhdr host P e x y = true ↔
      rdi host e P.Elf_Addr x.p_paddr < rdi host e P.Elf_Addr y.p_paddr) ∧
    (l.filter (fun p => !isPhdr host e p)).Pairwise
      (fun a b => phdrAddr host P e a ≤ phdrAddr host P e b) := by
  refine ⟨?_, ?_⟩
  · rw [CompPhdr_eq]; simp [hx, hy, phdrAddr]
  · have h2 : l.Pairwise (fun a b => (!isPhdr host e a) = true →
        (!isPhdr host e b) = true → phdrAddr host P e a ≤ phdrAddr host P e b) := by
      refine List.Pairwise.imp ?_ hl
      intro a b hab ha _
      rw [CompPhdr_eq] at hab
      simp only [Bool.not_eq_true', Bool.and_eq_false_imp, Bool.not_eq_eq_eq_not,
        Bool.not_true, Bool.or_eq_false_iff, decide_eq_false_iff_not, not_lt] at ha hab
      exact (hab ha).2
    have h3 := List.pairwise_filter.mpr h2
    simpa using h3


/-- Witness of C5: two `PT_LOAD` entries of a big-endian table on a
little-endian host, stored addresses `0x00010000` and `0x01000000`, decoded
`0x00000100` and `0x00000001`: the comparison follows the decoded values. -/
theorem CompPhdr_by_address_witness :
    isPhdr true sampleBE (mkPhdr 16777216 16777216) = false ∧
    isPhdr true sampleBE (mkPhdr 16777216 65536) = false ∧
    SortedWrt (CompPhdr true elf32 sampleBE)
      [mkPhdr 100663296 0, mkPhdr 16777216 16777216, mkPhdr 16777216 65536] ∧
    ((CompPhdr true elf32 sampleBE (mkPhdr 16777216 16777216) (mkPhdr 16777216 65536) = true ↔
      rdi true sampleBE elf32.Elf_Addr (mkPhdr 16777216 16777216).p_paddr
        < rdi true sampleBE elf32.Elf_Addr (mkPhdr 16777216 65536).p_paddr) ∧
    ([mkPhdr 100663296 0, mkPhdr 16777216 16777216, mkPhdr 16777216 65536].filter
        (fun p => !isPhdr true sampleBE p)).Pairwise
      (fun a b => phdrAddr true elf32 sampleBE a ≤ phdrAddr true elf32 sampleBE b)) :=
  ⟨by decide, by decide, by decide,
    CompPhdr_by_address true elf32 sampleBE (mkPhdr 16777216 16777216)
      (mkPhdr 16777216 65536) _ (by decide) (by decide) (by decide)⟩

/-- C6: `CompShdr(x, y)` holds exactly when `rdi(x.sh_offset) <
rdi(y.sh_offset)`; hence a section header list sorted with respect to
`CompShdr` is in non-decreasing order of decoded file offset, for both byte
orders, and of two headers `x`, `z` with equal `sh_offset` neither is ordered
before the other. -/
theorem CompShdr_by_offset (host : Bool) (P : ElfFileParams) (e : ElfFile)
    (x y z : Elf_Shdr) (l : List Elf_Shdr)
    (hl : SortedWrt (CompShdr host P e) l) (hxz : x.sh_offset = z.sh_offset) :
    (CompShdr host P e x y = true ↔
      rdi host e P.Elf_Off x.sh_offset < rdi host e P.Elf_Off y.sh_offset) ∧
    l.Pairwise (fun a b => shdrOffset host P e a ≤ shdrOffset host P e b) ∧
    (CompShdr host P e x z = false ∧ CompShdr host P e z x = false) := by
  refine ⟨?_, ?_, ?_⟩
  · simp [CompShdr]
  · refine List.Pairwise.imp ?_ hl
    intro a b hab
    simpa [CompShdr, shdrOffset] using hab
  · simp [CompShdr, hxz]

/-- Witness of C6: section headers of a big-endian image on a little-endian
host, stored offsets `0x01000000`, `0x00010000`, `0x00010000`, `0x00020000`,
decoded `0x1`, `0x100`, `0x100`, `0x200`. -/
theorem CompShdr_by_offset_witness :
    SortedWrt (CompShdr true elf32 sampleBE)
      [mkShdr 16777216 1, mkShdr 65536 2, mkShdr 65536 3, mkShdr 131072 4] ∧
    (mkShdr 65536 2).sh_offset = (mkShdr 65536 3).sh_offset ∧
    ((CompShdr true elf32 sampleBE (mkShdr 65536 2) (mkShdr 16777216 1) = true ↔
      rdi true sampleBE elf32.Elf_Off (mkShdr 65536 2).sh_offset
        < rdi true sampleBE elf32.Elf_Off (mkShdr 16777216 1).sh_offset) ∧
    [mkShdr 16777216 1, mkShdr 65536 2, mkShdr 65536 3, mkShdr 131072 4].Pairwise
      (fun a b => shdrOffset true elf32 sampleBE a ≤ shdrOffset true elf32 sampleBE b) ∧
    (CompShdr true elf32 sampleBE (mkShdr 65536 2) (mkShdr 65536 3) = false ∧
      CompShdr true elf32 sampleBE (mkShdr 65536 3) (mkShdr 65536 2) = false)) :=
  ⟨by decide, by decide,
    CompShdr_by_offset true elf32 sampleBE (mkShdr 65536 2) (mkShdr 16777216 1)
      (mkShdr 65536 3) _ (by decide) (by decide)⟩

/-- C9: `CompPhdr` is a strict weak ordering: it is irreflexive and
transitive, and incomparability is transitive; two program headers are
incomparable exactly when both have type `PT_PHDR` or neither has and their
decoded `p_paddr` are equal. -/
theorem CompPhdr_strict_weak_ordering (host : Bool) (P : ElfFileParams) (e : ElfFile)
    (x y z : Elf_Phdr) :
    CompPhdr host P e x x = false ∧
    (CompPhdr host P e x y = true → CompPhdr host P e y z = true →
      CompPhdr host P e x z = true) ∧
    ((CompPhdr host P e x y = false ∧ CompPhdr host P e y x = false) →
      (CompPhdr host P e y z = false ∧ CompPhdr host P e z y = false) →
      (CompPhdr host P e x z = false ∧ CompPhdr host P e z x = false)) ∧
    ((CompPhdr host P e x y = false ∧ CompPhdr host P e y x = false) ↔
      ((isPhdr host e x = true ∧ isPhdr host e y = true) ∨
        (isPhdr host e x = false ∧ isPhdr host e y = false ∧
          rdi host e P.Elf_Addr x.p_paddr = rdi host e P.Elf_Addr y.p_paddr))) := by
  simp only [CompPhdr_eq, phdrAddr]
  cases isPhdr host e x <;> cases isPhdr host e y <;> cases isPhdr host e z <;>
    simp <;> omega


/-! ## The replacement store -/

theorem resize_length (s : Bytes) (n : Nat) : (resize s n).length = n := by
  unfold resize
  simp only [List.length_append, List.length_take, List.length_replicate]
  omega

theorem take_resize (s : Bytes) (n : Nat) :
    (resize s n).take (min s.length n) = s.take (min s.length n) := by
  unfold resize
  rw [List.take_append_of_le_length (by simp [List.length_take])]
  rw [List.take_take]
  congr 1
  omega

theorem mapFind_mapAssign (m : ReplacedSections) (k : SectionName) (v : Bytes) :
    mapFind (mapAssign m k v) k = some v := by
  induction m with
  | nil => simp [mapAssign, mapFind]
  | cons p m ih =>
    obtain ⟨k', v'⟩ := p
    by_cases h : k' = k
    · simp [mapAssign, mapFind, h]
    · simp [mapAssign, mapFind, h, ih]

theorem mapAssign_mapAssign (m : ReplacedSections) (k : SectionName) (v w : Bytes) :
    mapAssign (mapAssign m k v) k w = mapAssign m k w := by
  induction m with
  | nil => simp [mapAssign]
  | cons p m ih =>
    obtain ⟨k', v'⟩ := p
    by_cases h : k' = k
    · simp [mapAssign, h]
    · simp [mapAssign, h, ih]

theorem entriesOf_of_not_mem (m : ReplacedSections) (k : SectionName)
    (h : k ∉ m.map Prod.fst) : entriesOf m k = [] := by
  unfold entriesOf
  rw [List.filter_eq_nil_iff]
  intro p hp hk
  apply h
  simp only [decide_eq_true_eq] at hk
  exact List.mem_map.mpr ⟨p, hp, hk⟩

theorem entriesOf_mapAssign (m : ReplacedSections) (k : SectionName) (v : Bytes)
    (h : (m.map Prod.fst).Nodup) : entriesOf (mapAssign m k v) k = [(k, v)] := by
  induction m with
  | nil => simp [mapAssign, entriesOf]
  | cons p m ih =>
    obtain ⟨k', v'⟩ := p
    simp only [List.map_cons, List.nodup_cons] at h
    by_cases hk : k' = k
    · subst hk
      have h1 := entriesOf_of_not_mem m k' h.1
      unfold entriesOf at h1 ⊢
      simp [mapAssign, h1]
    · have h2 := ih h.2
      unfold entriesOf at h2 ⊢
      simp [mapAssign, hk, h2]

theorem replaceSection_ok (host : Bool) (P : ElfFileParams) (e e1 : ElfFile)
    (n : SectionName) (s1 : Nat) (buf1 : Bytes)
    (h : replaceSection host P e n s1 = Except.ok (e1, buf1)) :
    e1 = { e with replacedSections := mapAssign e.replacedSections n buf1,
                  changed := true } ∧ buf1.length = s1 := by
  unfold replaceSection at h
  cases hf : mapFind e.replacedSections n with
  | some buf =>
    simp only [hf] at h
    injection h with h
    injection h with h1 h2
    subst h2
    exact ⟨h1.symm, resize_length _ _⟩
  | none =>
    simp only [hf] at h
    cases hs : findSectionHeader host e n with
    | error err => simp [hs] at h
    | ok shdr =>
      simp only [hs] at h
      injection h with h
      injection h with h1 h2
      subst h2
      exact ⟨h1.symm, resize_length _ _⟩


/-- C7: `replaceSection(n, s1)` followed by `replaceSection(n, s2)` leaves
exactly one entry for `n` in the replacement store, and the second call
returns the existing buffer, with the edits the client made to it, resized to
`s2`: its first `min(s1, s2)` bytes are those of the buffer before the call,
whatever the file image holds; afterwards `haveReplacedSection(n)` is true.
A client that made no edit is the case `edited = buf1`. -/
theorem replaceSection_twice (host : Bool) (P : ElfFileParams) (e e1 : ElfFile)
    (n : SectionName) (s1 s2 : Nat) (buf1 edited : Bytes)
    (hm : (e.replacedSections.map Prod.fst).Nodup)
    (h1 : replaceSection host P e n s1 = Except.ok (e1, buf1))
    (hlen : edited.length = s1) :
    buf1.length = s1 ∧ editBuffer e1 n buf1 = e1 ∧
    ∃ e2, replaceSection host P (editBuffer e1 n edited) n s2
        = Except.ok (e2, resize edited s2) ∧
      entriesOf e2.replacedSections n = [(n, resize edited s2)] ∧
      (resize edited s2).take (min s1 s2) = edited.take (min s1 s2) ∧
      haveReplacedSection e2 n = true := by
  obtain ⟨he1, hb1⟩ := replaceSection_ok host P e e1 n s1 buf1 h1
  subst he1
  refine ⟨hb1, ?_, ?_⟩
  · simp [editBuffer, mapAssign_mapAssign]
  · refine ⟨{ e with replacedSections := mapAssign e.replacedSections n (resize edited s2),
                     changed := true }, ?_, ?_, ?_, ?_⟩
    · simp [replaceSection, editBuffer, mapFind_mapAssign, mapAssign_mapAssign]
    · exact entriesOf_mapAssign _ _ _ hm
    · rw [← hlen]; exact take_resize edited s2
    · simp [haveReplacedSection, mapFind_mapAssign]

/-- Witness of C7: `.interp` of the sample image (payload `/ld\0`) replaced
with size 4, edited by the client to `/x\0\0`, then replaced with size 6. -/
theorem replaceSection_twice_witness :
    (sampleLE.replacedSections.map Prod.fst).Nodup ∧
    replaceSection true elf64 sampleLE ".interp" 4
      = Except.ok ({ sampleLE with replacedSections := [(".interp", [47, 108, 100, 0])],
                                   changed := true }, [47, 108, 100, 0]) ∧
    ([47, 120, 0, 0] : Bytes).length = 4 ∧
    (([47, 108, 100, 0] : Bytes).length = 4 ∧
    editBuffer { sampleLE with replacedSections := [(".interp", [47, 108, 100, 0])],
                               changed := true } ".interp" [47, 108, 100, 0]
      = { sampleLE with replacedSections := [(".interp", [47, 108, 100, 0])],
                        changed := true } ∧
    ∃ e2, replaceSection true elf64
        (editBuffer { sampleLE with replacedSections := [(".interp", [47, 108, 100, 0])],
                                    changed := true } ".interp" [47, 120, 0, 0]) ".interp" 6
        = Except.ok (e2, resize [47, 120, 0, 0] 6) ∧
      entriesOf e2.replacedSections ".interp" = [(".interp", resize [47, 120, 0, 0] 6)] ∧
      (resize [47, 120, 0, 0] 6).take (min 4 6) = ([47, 120, 0, 0] : Bytes).take (min 4 6) ∧
      haveReplacedSection e2 ".interp" = true) :=
  ⟨by decide, by decide, by decide,
    replaceSection_twice true elf64 sampleLE _ ".interp" 4 6 [47, 108, 100, 0] [47, 120, 0, 0]
      (by decide) (by decide) (by decide)⟩

/-- C8: on an engine whose replacement store is empty, `rewriteSections` with
`force = false` returns with the engine state (file image, program and
section headers, replacement store, `changed` flag) exactly as it was, so
that `isChanged()` answers as before: false on an engine where it was
false. -/
theorem rewriteSections_clean_noop (commit : ElfFile → Except ErrorKind ElfFile)
    (e : ElfFile) (hempty : e.replacedSections = []) :
    rewriteSections commit e false = Except.ok e ∧
    ∀ r, rewriteSections commit e false = Except.ok r →
      r.fileContents = e.fileContents ∧ r.phdrs = e.phdrs ∧ r.shdrs = e.shdrs ∧
      r.replacedSections = e.replacedSections ∧ r.changed = e.changed ∧
      isChanged r = isChanged e ∧ (e.changed = false → isChanged r = false) := by
  have h : rewriteSections commit e false = Except.ok e := by
    simp [rewriteSections, hempty]
  refine ⟨h, ?_⟩
  intro r hr
  rw [h] at hr
  injection hr with hr
  subst hr
  simp [isChanged]

/-- Witness of C8: the sample image, clean, with a rewriter that would fail. -/
theorem rewriteSections_clean_noop_witness :
    sampleLE.replacedSections = [] ∧
    (rewriteSections (fun _ => Except.error ErrorKind.NoRoom) sampleLE false
        = Except.ok sampleLE ∧
    ∀ r, rewriteSections (fun _ => Except.error ErrorKind.NoRoom) sampleLE false
        = Except.ok r →
      r.fileContents = sampleLE.fileContents ∧ r.phdrs = sampleLE.phdrs ∧
      r.shdrs = sampleLE.shdrs ∧
      r.replacedSections = sampleLE.replacedSections ∧ r.changed = sampleLE.changed ∧
      isChanged r = isChanged sampleLE ∧ (sampleLE.changed = false → isChanged r = false)) :=
  ⟨by decide,
    rewriteSections_clean_noop (fun _ => Except.error ErrorKind.NoRoom) sampleLE
      (by decide)⟩

end Patchelf
